import Mathlib

/-!
Verification of the PDP hackathon status-display system.

Part 1 models the Arduino display firmware (`src/arduino/arduino.ino`): a
16x2 LCD driven over a 9600-baud serial link. The LCD is modelled at the
level of the `LiquidCrystal` operations the sketch uses (`clear`,
`setCursor`, `print`): a state with two character rows and a cursor.
Row contents are unbounded character lists; physical truncation to 16
columns is the glass's concern, not the firmware logic under proof.

Part 2 models the Status Relay (the Rust service). Its source is not in
the repository snapshot; the definitions there are modelled from the
specification's protocol description, as marked on each definition.
-/

namespace Arduino

/-- LCD state: two character rows plus the cursor position, as driven by
the `LiquidCrystal` calls in `arduino.ino`. -/
structure LCD where
  row0 : List Char
  row1 : List Char
  cursorCol : Nat
  cursorRow : Nat
deriving DecidableEq

/-- Write character `c` at position `i` of a row, padding with blanks when
the cell is beyond the text written so far (DDRAM cells default blank). -/
def writeAt : List Char → Nat → Char → List Char
  | [], 0, c => [c]
  | [], Nat.succ i, c => ' ' :: writeAt [] i c
  | _ :: rest, 0, c => c :: rest
  | x :: rest, Nat.succ i, c => x :: writeAt rest i c

/-- `lcd.print` of a single character: write at the cursor, advance it. -/
def printChar (st : LCD) (c : Char) : LCD :=
  if st.cursorRow = 0 then
    { st with row0 := writeAt st.row0 st.cursorCol c, cursorCol := st.cursorCol + 1 }
  else
    { st with row1 := writeAt st.row1 st.cursorCol c, cursorCol := st.cursorCol + 1 }

/-- `lcd.print(s)`: print the characters of `s` in order. -/
def printStr (st : LCD) (s : List Char) : LCD :=
  s.foldl printChar st

/-- `lcd.setCursor(col, row)`. -/
def setCursor (st : LCD) (col row : Nat) : LCD :=
  { st with cursorCol := col, cursorRow := row }

/-- `lcd.clear()`: blank the whole display and home the cursor. -/
def clear (_ : LCD) : LCD :=
  ⟨[], [], 0, 0⟩

/-- The display state right after `lcd.begin(16, 2)`: blank, cursor home. -/
def beginState : LCD :=
  ⟨[], [], 0, 0⟩

/-- The baud rate passed to `Serial.begin` in `setup()`. -/
def setupBaud : Nat := 9600

/-- The LCD state produced by `setup()`: print the greeting on row 0 and
the search banner on row 1, per `arduino.ino` lines 8-13. -/
def setupState : LCD :=
  let st1 := setCursor beginState 0 0
  let st2 := printStr st1 "Cat Pics Radar".data
  let st3 := setCursor st2 0 1
  printStr st3 "Searching...".data

/-- `String.indexOf` of the Arduino `String` class: index of the first
occurrence of `c`, `none` standing for the sketch's negative result. -/
def indexOf : List Char → Char → Option Nat
  | [], _ => none
  | x :: xs, c => if x = c then some 0 else (indexOf xs c).map (· + 1)

/-- One iteration of `loop()` in `arduino.ino` on a received serial line
`data` (the line as returned by `readStringUntil`, newline stripped):
bail out when no comma is found, else split at the first comma, clear the
display, print the filename half on row 0 and the rest on row 1. -/
def loopStep (st : LCD) (data : List Char) : LCD :=
  match indexOf data ',' with
  | none => st
  | some idx =>
    let filename := data.take idx
    let msg := data.drop (idx + 1)
    let st1 := setCursor st 0 0
    let st2 := clear st1
    let st3 := printStr st2 filename
    let st4 := setCursor st3 0 1
    printStr st4 msg

/-- Process a sequence of received serial lines in order. -/
def runLines (st : LCD) (lines : List (List Char)) : LCD :=
  lines.foldl loopStep st

theorem writeAt_at_length (row : List Char) (c : Char) :
    writeAt row row.length c = row ++ [c] := by
  induction row with
  | nil => rfl
  | cons x rest ih => simpa [writeAt, List.length_cons] using ih

theorem printStr_row0 (r0 r1 : List Char) (s : List Char) :
    printStr ⟨r0, r1, r0.length, 0⟩ s = ⟨r0 ++ s, r1, r0.length + s.length, 0⟩ := by
  induction s generalizing r0 with
  | nil => simp [printStr]
  | cons c cs ih =>
    have step : printChar ⟨r0, r1, r0.length, 0⟩ c
        = ⟨r0 ++ [c], r1, (r0 ++ [c]).length, 0⟩ := by
      simp [printChar, writeAt_at_length]
    calc printStr ⟨r0, r1, r0.length, 0⟩ (c :: cs)
        = printStr ⟨r0 ++ [c], r1, (r0 ++ [c]).length, 0⟩ cs := by
          simp [printStr, step]
      _ = ⟨(r0 ++ [c]) ++ cs, r1, (r0 ++ [c]).length + cs.length, 0⟩ := ih (r0 ++ [c])
      _ = ⟨r0 ++ (c :: cs), r1, r0.length + (c :: cs).length, 0⟩ := by
          simp [List.append_assoc, List.length_append, List.length_cons]
          omega

theorem printStr_row1 (r0 r1 : List Char) (s : List Char) :
    printStr ⟨r0, r1, r1.length, 1⟩ s = ⟨r0, r1 ++ s, r1.length + s.length, 1⟩ := by
  induction s generalizing r1 with
  | nil => simp [printStr]
  | cons c cs ih =>
    have step : printChar ⟨r0, r1, r1.length, 1⟩ c
        = ⟨r0, r1 ++ [c], (r1 ++ [c]).length, 1⟩ := by
      simp [printChar, writeAt_at_length]
    calc printStr ⟨r0, r1, r1.length, 1⟩ (c :: cs)
        = printStr ⟨r0, r1 ++ [c], (r1 ++ [c]).length, 1⟩ cs := by
          simp [printStr, step]
      _ = ⟨r0, (r1 ++ [c]) ++ cs, (r1 ++ [c]).length + cs.length, 1⟩ := ih (r1 ++ [c])
      _ = ⟨r0, r1 ++ (c :: cs), r1.length + (c :: cs).length, 1⟩ := by
          simp [List.append_assoc, List.length_append, List.length_cons]
          omega

theorem indexOf_of_not_mem {data : List Char} {c : Char} (h : c ∉ data) :
    indexOf data c = none := by
  induction data with
  | nil => rfl
  | cons x xs ih =>
    have hx : x ≠ c := fun hxc => h (hxc ▸ List.mem_cons_self x xs)
    have hxs : c ∉ xs := fun hm => h (List.mem_cons_of_mem x hm)
    simp [indexOf, hx, ih hxs]

theorem indexOf_append_cons {a : List Char} (b : List Char) {c : Char}
    (h : c ∉ a) : indexOf (a ++ c :: b) c = some a.length := by
  induction a with
  | nil => simp [indexOf]
  | cons x xs ih =>
    have hx : x ≠ c := fun hxc => h (hxc ▸ List.mem_cons_self x xs)
    have hxs : c ∉ xs := fun hm => h (List.mem_cons_of_mem x hm)
    simp [indexOf, hx, ih hxs]

theorem loopStep_split (st : LCD) (a b : List Char) (h : ',' ∉ a) :
    loopStep st (a ++ ',' :: b) = ⟨a, b, b.length, 1⟩ := by
  have hidx := indexOf_append_cons b h
  have htake : (a ++ ',' :: b).take a.length = a := List.take_left a (',' :: b)
  have hdrop : (a ++ ',' :: b).drop (a.length + 1) = b := by
    have : a ++ ',' :: b = (a ++ [',']) ++ b := by simp
    rw [this]
    have hlen : (a ++ [',']).length = a.length + 1 := by simp
    rw [← hlen]
    exact List.drop_left (a ++ [',']) b
  have hclear : clear (setCursor st 0 0) = beginState := rfl
  have h0 : printStr ⟨[], [], 0, 0⟩ a = ⟨[] ++ a, [], [].length + a.length, 0⟩ :=
    printStr_row0 [] [] a
  simp only [loopStep, hidx, hclear, beginState] at *
  rw [htake, hdrop, h0]
  have h1 : printStr ⟨a, [], ([] : List Char).length, 1⟩ b
      = ⟨a, [] ++ b, ([] : List Char).length + b.length, 1⟩ := printStr_row1 a [] b
  simp only [List.nil_append, List.length_nil, Nat.zero_add] at h1 ⊢
  exact h1

/-- Claim C1: a serial line with at least one comma is split at its first
comma; the filename half lands on LCD row 0 and the entire remainder after
that first comma, later commas included, lands on row 1. The line is
written `a ++ ',' :: b` with `a` comma-free, so the split point is the
first comma and `b` is the full remainder. -/
theorem loop_renders_split (st : LCD) (a b : List Char) (h : ',' ∉ a) :
    (loopStep st (a ++ ',' :: b)).row0 = a ∧ (loopStep st (a ++ ',' :: b)).row1 = b := by
  rw [loopStep_split st a b h]
  exact ⟨rfl, rfl⟩

theorem loop_renders_split_witness :
    (',' ∉ "cat.png".data) ∧
    (loopStep setupState ("cat.png".data ++ ',' :: "stored & proven".data)).row0
      = "cat.png".data ∧
    (loopStep setupState ("cat.png".data ++ ',' :: "stored & proven".data)).row1
      = "stored & proven".data := by
  refine ⟨by decide, ?_⟩
  exact loop_renders_split setupState "cat.png".data "stored & proven".data (by decide)

/-- Claim C9: a serial line with no comma makes `loop()` return before any
LCD call, leaving the display exactly as it was. -/
theorem loop_no_comma_frame (st : LCD) (data : List Char) (h : ',' ∉ data) :
    loopStep st data = st := by
  simp [loopStep, indexOf_of_not_mem h]

theorem loop_no_comma_frame_witness :
    (',' ∉ "garbage".data) ∧ loopStep setupState "garbage".data = setupState :=
  ⟨by decide, loop_no_comma_frame setupState "garbage".data (by decide)⟩

/-- Claim C10: at startup, before any serial traffic, the device opens the
serial link at 9600 baud and the LCD shows "Cat Pics Radar" on row 0 and
"Searching..." on row 1. -/
theorem setup_greeting :
    setupBaud = 9600 ∧
    setupState.row0 = "Cat Pics Radar".data ∧
    setupState.row1 = "Searching...".data ∧
    runLines setupState [] = setupState := by
  refine ⟨rfl, ?_, ?_, rfl⟩ <;> decide

theorem indexOf_ne_none_of_mem {data : List Char} {c : Char} (h : c ∈ data) :
    indexOf data c ≠ none := by
  induction data with
  | nil => cases h
  | cons x xs ih =>
    by_cases hx : x = c
    · simp [indexOf, hx]
    · have hm : c ∈ xs := by
        cases List.mem_cons.mp h with
        | inl he => exact absurd he.symm hx
        | inr hm => exact hm
      simp only [indexOf, hx, if_false]
      intro hc
      exact ih hm (by simpa using hc)

theorem loopStep_const_of_mem (st st' : LCD) (data : List Char) (h : ',' ∈ data) :
    loopStep st data = loopStep st' data := by
  cases hidx : indexOf data ',' with
  | none => exact absurd hidx (indexOf_ne_none_of_mem h)
  | some idx => simp [loopStep, hidx, clear, setCursor]

/-- Claim C8: the display firmware is stateless across messages — any two
histories of serial lines ending in the same comma-bearing line leave
identical LCD contents, because the handler clears the whole display
before printing, making the output a function of the latest line only. -/
theorem display_stateless (st₁ st₂ : LCD) (ls₁ ls₂ : List (List Char))
    (last : List Char) (h : ',' ∈ last) :
    runLines st₁ (ls₁ ++ [last]) = runLines st₂ (ls₂ ++ [last]) := by
  have h₁ : runLines st₁ (ls₁ ++ [last]) = loopStep (runLines st₁ ls₁) last := by
    simp [runLines, List.foldl_append]
  have h₂ : runLines st₂ (ls₂ ++ [last]) = loopStep (runLines st₂ ls₂) last := by
    simp [runLines, List.foldl_append]
  rw [h₁, h₂]
  exact loopStep_const_of_mem _ _ last h

theorem display_stateless_witness :
    (',' ∈ "cat.png,stored".data) ∧
    runLines beginState (["a,b".data, "zzz".data] ++ ["cat.png,stored".data])
      = runLines setupState ([] ++ ["cat.png,stored".data]) :=
  ⟨by decide,
   display_stateless beginState setupState ["a,b".data, "zzz".data] []
     "cat.png,stored".data (by decide)⟩

end Arduino

namespace Relay

/-- Modelled from the spec: the four lifecycle states of section 4.2 of the
Status Relay, whose Rust source is absent from the snapshot. -/
inductive Status where
  | Uploaded
  | Stored
  | Proven
  | Faulty
deriving DecidableEq

/-- Modelled from the spec: `FileRecord`, the unit of tracked state
(section 3): display name, opaque file identifier, optional proof-set
reference, lifecycle status, and the timestamp of the last status change. -/
structure FileRecord where
  display_name : String
  file_identifier : String
  proofset_identifier : Option String
  status : Status
  last_transition_at : Nat
deriving DecidableEq

/-- Modelled from the spec: the Status Store, a table keyed by
`file_identifier` (section 3), with at most one record per identifier. -/
abbrev Store : Type := List (String × FileRecord)

/-- The empty store the relay starts from (state is not persisted). -/
def emptyStore : Store := []

/-- Lookup by `file_identifier`. -/
def findRec : Store → String → Option FileRecord
  | [], _ => none
  | (k, r) :: rest, fid => if k = fid then some r else findRec rest fid

/-- Update the record under a key, appending a fresh entry when absent. -/
def updateRec : Store → String → FileRecord → Store
  | [], fid, r => [(fid, r)]
  | (k, x) :: rest, fid, r =>
    if k = fid then (fid, r) :: rest else (k, x) :: updateRec rest fid r

/-- Modelled from the spec: the transition requests the Coordinator accepts
(section 4.2): the two decoded ingress events plus a poll result. -/
inductive Transition where
  | uploaded (file_identifier display_name : String)
  | rootsAdded (file_identifier proofset_identifier : String)
  | pollResult (file_identifier : String) (healthy : Bool)
deriving DecidableEq

/-- The identifier a transition request is keyed by. -/
def Transition.key : Transition → String
  | .uploaded fid _ => fid
  | .rootsAdded fid _ => fid
  | .pollResult fid _ => fid

/-- The states the Poller acts on: `Stored`, `Proven`, `Faulty`. -/
def inPollStates : Status → Bool
  | .Uploaded => false
  | .Stored => true
  | .Proven => true
  | .Faulty => true

/-- Modelled from the spec: the transition table of section 4.2, applied at
the Coordinator's single mutation point at time `now`.
`UploadedEvent` creates a record in `Uploaded` when the identifier is
unknown and is otherwise an idempotent no-op; `RootsAddedEvent` moves an
`Uploaded` record to `Stored` setting its proof set, creates a synthetic
`Stored` record for an unknown identifier (out-of-order tolerance, the
identifier being the only name information available), and is a no-op once
a proof set exists; a poll result moves a record with a proof set between
`Proven` and `Faulty`, never touching records without one, and touches the
timestamp only when the status actually changes. -/
def applyTransition (now : Nat) (t : Transition) (s : Store) : Store :=
  match t with
  | .uploaded fid name =>
    match findRec s fid with
    | none => updateRec s fid ⟨name, fid, none, .Uploaded, now⟩
    | some _ => s
  | .rootsAdded fid pid =>
    match findRec s fid with
    | none => updateRec s fid ⟨fid, fid, some pid, .Stored, now⟩
    | some r =>
      match r.status with
      | .Uploaded =>
        updateRec s fid
          { r with proofset_identifier := some pid, status := .Stored,
                   last_transition_at := now }
      | _ => s
  | .pollResult fid healthy =>
    match findRec s fid with
    | none => s
    | some r =>
      match r.proofset_identifier with
      | none => s
      | some _ =>
        if inPollStates r.status then
          let newStatus : Status := if healthy then .Proven else .Faulty
          if newStatus = r.status then s
          else updateRec s fid { r with status := newStatus, last_transition_at := now }
        else s

/-- Apply a timestamped sequence of transition requests in order. -/
def applyAll (ts : List (Nat × Transition)) (s : Store) : Store :=
  ts.foldl (fun st nt => applyTransition nt.1 nt.2 st) s

theorem findRec_updateRec_self (s : Store) (fid : String) (r : FileRecord) :
    findRec (updateRec s fid r) fid = some r := by
  induction s with
  | nil => simp [updateRec, findRec]
  | cons kx rest ih =>
    obtain ⟨k, x⟩ := kx
    by_cases hk : k = fid
    · simp [updateRec, hk, findRec]
    · simp [updateRec, hk, findRec, ih]

theorem findRec_updateRec_ne (s : Store) {fid id : String} (r : FileRecord)
    (h : fid ≠ id) : findRec (updateRec s fid r) id = findRec s id := by
  induction s with
  | nil => simp [updateRec, findRec, h]
  | cons kx rest ih =>
    obtain ⟨k, x⟩ := kx
    by_cases hk : k = fid
    · subst hk
      simp [updateRec, findRec, h, ih]
    · simp [updateRec, hk, findRec, ih]

/-- Modelled from the spec: the fixed status vocabulary of section 4.4 of
the Status Relay, whose Rust source is absent from the snapshot. -/
def statusText : Status → String
  | .Uploaded => "uploaded"
  | .Stored => "stored"
  | .Proven => "stored & proven"
  | .Faulty => "stored & faulty"

/-- Modelled from the spec: `render` of section 4.4 — the wire line is the
display name, a comma, the status text, and a newline. -/
def render (r : FileRecord) : String :=
  r.display_name ++ "," ++ statusText r.status ++ "\n"

/-- Modelled from the spec: an inbound message after transport framing and
structural parsing (section 6): a stage string and the three `data` fields,
each `none` when missing from the payload. -/
structure RawMessage where
  stage : String
  file : Option String
  file_id : Option String
  proofset_id : Option String
deriving DecidableEq

/-- Modelled from the spec: the typed domain events of section 4.1. -/
inductive Event where
  | uploadedEvent (file_identifier display_name : String)
  | rootsAddedEvent (file_identifier proofset_identifier : String)
deriving DecidableEq

/-- Modelled from the spec: the error class for malformed inbound
messages (sections 4.1 and 7). -/
inductive DecodeError where
  | decodeError
deriving DecidableEq

/-- Modelled from the spec: `decode` of section 4.1, failing closed —
`UPLOADED` needs `file` and `file_id`, `ROOTS_ADDED` needs `file`,
`file_id` and `proofset_id`; any other stage, or a missing required
field, is a `DecodeError`. -/
def decode (m : RawMessage) : Except DecodeError Event :=
  if m.stage = "UPLOADED" then
    match m.file with
    | none => .error .decodeError
    | some f =>
      match m.file_id with
      | none => .error .decodeError
      | some fid => .ok (.uploadedEvent fid f)
  else if m.stage = "ROOTS_ADDED" then
    match m.file with
    | none => .error .decodeError
    | some _ =>
      match m.file_id with
      | none => .error .decodeError
      | some fid =>
        match m.proofset_id with
        | none => .error .decodeError
        | some pid => .ok (.rootsAddedEvent fid pid)
  else .error .decodeError

/-- The transition request an ingress event submits to the Coordinator. -/
def Event.toTransition : Event → Transition
  | .uploadedEvent fid name => .uploaded fid name
  | .rootsAddedEvent fid pid => .rootsAdded fid pid

/-- The externally visible pair of a store cell (section 4.2). -/
def visibleOf (o : Option FileRecord) : Option (String × Status) :=
  o.map fun r => (r.display_name, r.status)

/-- Modelled from the spec: the Coordinator (section 4.5) applies a
transition at its single mutation point and, when the visible
`(display_name, status)` pair changed, forwards the rendered record to the
Display Sink; the Sink is modelled as the list of lines written, in order. -/
def coordinatorApply (now : Nat) (t : Transition) (st : Store × List String) :
    Store × List String :=
  let s' := applyTransition now t st.1
  if visibleOf (findRec s' t.key) = visibleOf (findRec st.1 t.key) then (s', st.2)
  else
    match findRec s' t.key with
    | some r => (s', st.2 ++ [render r])
    | none => (s', st.2)

/-- Modelled from the spec: one ingestion step (sections 4.1 and 4.5) —
decode the message and submit its transition; on `DecodeError` the message
is dropped and store and Sink are untouched. -/
def ingestStep (now : Nat) (m : RawMessage) (st : Store × List String) :
    Store × List String :=
  match decode m with
  | .error _ => st
  | .ok e => coordinatorApply now e.toTransition st

/-- Ingest a timestamped message sequence in order. -/
def ingestAll (ms : List (Nat × RawMessage)) (st : Store × List String) :
    Store × List String :=
  ms.foldl (fun st2 nm => ingestStep nm.1 nm.2 st2) st

/-- Modelled from the spec: Poller tick selection (section 4.3) — every
record with `proofset_identifier` set, state in `{Stored, Proven, Faulty}`,
and past its per-record rate limit, paired with the proof-set id that will
be queried. -/
def pollSelect (now minInterval : Nat) (s : Store) : List (String × String) :=
  s.filterMap fun kr =>
    match kr.2.proofset_identifier with
    | some p =>
      if inPollStates kr.2.status
          && decide (kr.2.last_transition_at + minInterval ≤ now)
      then some (kr.1, p) else none
    | none => none

/-- Modelled from the spec: a full Poller tick (section 4.3) — query the
health of each selected proof set and submit the corresponding poll-result
transition to the Coordinator. -/
def pollTick (now minInterval : Nat) (health : String → Bool) (s : Store) : Store :=
  (pollSelect now minInterval s).foldl
    (fun st fp => applyTransition now (.pollResult fp.1 (health fp.2)) st) s

/-- Progress rank of a store cell along the section 4.2 state machine:
absent 0, `Uploaded` 1, `Stored` 2, `Proven` and `Faulty` 3. A rank of 2 or
more means a proof set exists; monotonicity of the rank says a record never
falls back to `Uploaded`, nor from `Proven`/`Faulty` back to `Stored`. -/
def statusRank : Option FileRecord → Nat
  | none => 0
  | some r =>
    match r.status with
    | .Uploaded => 1
    | .Stored => 2
    | .Proven => 3
    | .Faulty => 3

theorem statusRank_le_three (o : Option FileRecord) : statusRank o ≤ 3 := by
  cases o with
  | none => simp [statusRank]
  | some r => cases hr : r.status <;> simp [statusRank, hr]

theorem statusRank_applyTransition (now : Nat) (t : Transition) (s : Store)
    (id : String) :
    statusRank (findRec s id) ≤ statusRank (findRec (applyTransition now t s) id) := by
  cases t with
  | uploaded fid name =>
    cases hfs : findRec s fid with
    | none =>
      by_cases hid : fid = id
      · subst hid
        simp [applyTransition, hfs, findRec_updateRec_self, statusRank]
      · simp [applyTransition, hfs, findRec_updateRec_ne s _ hid]
    | some r => simp [applyTransition, hfs]
  | rootsAdded fid pid =>
    cases hfs : findRec s fid with
    | none =>
      by_cases hid : fid = id
      · subst hid
        simp [applyTransition, hfs, findRec_updateRec_self, statusRank]
      · simp [applyTransition, hfs, findRec_updateRec_ne s _ hid]
    | some r =>
      cases hst : r.status with
      | Uploaded =>
        by_cases hid : fid = id
        · subst hid
          simp [applyTransition, hfs, hst, findRec_updateRec_self, statusRank]
        · simp [applyTransition, hfs, hst, findRec_updateRec_ne s _ hid]
      | Stored => simp [applyTransition, hfs, hst]
      | Proven => simp [applyTransition, hfs, hst]
      | Faulty => simp [applyTransition, hfs, hst]
  | pollResult fid healthy =>
    cases hfs : findRec s fid with
    | none => simp [applyTransition, hfs]
    | some r =>
      cases hp : r.proofset_identifier with
      | none => simp [applyTransition, hfs, hp]
      | some q =>
        by_cases hps : inPollStates r.status = true
        · by_cases heq : (if healthy then Status.Proven else Status.Faulty) = r.status
          · simp [applyTransition, hfs, hp, hps, heq]
          · by_cases hid : fid = id
            · subst hid
              have hle : statusRank (some r) ≤ 3 := statusRank_le_three _
              simp only [applyTransition, hfs, hp, hps, if_true, heq, if_false,
                findRec_updateRec_self]
              cases healthy <;> simpa [statusRank] using hle
            · simp [applyTransition, hfs, hp, hps, heq,
                findRec_updateRec_ne s _ hid]
        · simp [applyTransition, hfs, hp, hps]

theorem statusRank_applyAll (ts : List (Nat × Transition)) (s : Store)
    (id : String) :
    statusRank (findRec s id) ≤ statusRank (findRec (applyAll ts s) id) := by
  induction ts generalizing s with
  | nil => exact Nat.le_refl _
  | cons nt rest ih =>
    have hstep := statusRank_applyTransition nt.1 nt.2 s id
    have htail := ih (applyTransition nt.1 nt.2 s)
    have hunf : applyAll (nt :: rest) s = applyAll rest (applyTransition nt.1 nt.2 s) := rfl
    rw [hunf]
    exact Nat.le_trans hstep htail

/-- Claim C2: over any sequence of transition requests applied to the empty
store, the status of any identifier is monotonic with respect to the
section 4.2 table — the progress rank (absent 0, Uploaded 1, Stored 2,
Proven and Faulty 3) never decreases along the sequence, so once a proof
set exists (rank 2 or more) no later event or poll result moves the record
back to Uploaded, and once Proven or Faulty (rank 3, where proof health may
still flap) never back to Stored or Uploaded. -/
theorem status_monotonic (ts more : List (Nat × Transition)) (id : String) :
    statusRank (findRec (applyAll ts emptyStore) id)
      ≤ statusRank (findRec (applyAll (ts ++ more) emptyStore) id) := by
  have hsplit : applyAll (ts ++ more) emptyStore
      = applyAll more (applyAll ts emptyStore) := by
    simp [applyAll, List.foldl_append]
  rw [hsplit]
  exact statusRank_applyAll more (applyAll ts emptyStore) id

/-- A record with a proof set is never in `Uploaded`: the invariant
connecting `proofset_identifier` to the state machine, maintained by every
transition from the empty store. -/
def StoreInv (s : Store) : Prop :=
  ∀ fid r, findRec s fid = some r →
    r.proofset_identifier.isSome = true → r.status ≠ Status.Uploaded

theorem storeInv_empty : StoreInv emptyStore := by
  intro fid r h
  simp [emptyStore, findRec] at h

theorem storeInv_applyTransition (now : Nat) (t : Transition) (s : Store)
    (h : StoreInv s) : StoreInv (applyTransition now t s) := by
  intro fid' r' hf hps
  cases t with
  | uploaded fid name =>
    cases hfs : findRec s fid with
    | none =>
      rw [applyTransition] at hf
      simp only [hfs] at hf
      by_cases hid : fid = fid'
      · subst hid
        rw [findRec_updateRec_self] at hf
        cases hf
        simp at hps
      · rw [findRec_updateRec_ne s _ hid] at hf
        exact h fid' r' hf hps
    | some r =>
      rw [applyTransition] at hf
      simp only [hfs] at hf
      exact h fid' r' hf hps
  | rootsAdded fid pid =>
    cases hfs : findRec s fid with
    | none =>
      rw [applyTransition] at hf
      simp only [hfs] at hf
      by_cases hid : fid = fid'
      · subst hid
        rw [findRec_updateRec_self] at hf
        cases hf
        simp
      · rw [findRec_updateRec_ne s _ hid] at hf
        exact h fid' r' hf hps
    | some r =>
      cases hst : r.status with
      | Uploaded =>
        rw [applyTransition] at hf
        simp only [hfs, hst] at hf
        by_cases hid : fid = fid'
        · subst hid
          rw [findRec_updateRec_self] at hf
          cases hf
          simp
        · rw [findRec_updateRec_ne s _ hid] at hf
          exact h fid' r' hf hps
      | Stored =>
        rw [applyTransition] at hf
        simp only [hfs, hst] at hf
        exact h fid' r' hf hps
      | Proven =>
        rw [applyTransition] at hf
        simp only [hfs, hst] at hf
        exact h fid' r' hf hps
      | Faulty =>
        rw [applyTransition] at hf
        simp only [hfs, hst] at hf
        exact h fid' r' hf hps
  | pollResult fid healthy =>
    cases hfs : findRec s fid with
    | none =>
      rw [applyTransition] at hf
      simp only [hfs] at hf
      exact h fid' r' hf hps
    | some r =>
      cases hp : r.proofset_identifier with
      | none =>
        rw [applyTransition] at hf
        simp only [hfs, hp] at hf
        exact h fid' r' hf hps
      | some q =>
        by_cases hpoll : inPollStates r.status = true
        · by_cases heq : (if healthy then Status.Proven else Status.Faulty) = r.status
          · rw [applyTransition] at hf
            simp only [hfs, hp, hpoll, if_true, heq] at hf
            exact h fid' r' hf hps
          · rw [applyTransition] at hf
            simp only [hfs, hp, hpoll, if_true, heq, if_false] at hf
            by_cases hid : fid = fid'
            · subst hid
              rw [findRec_updateRec_self] at hf
              cases hf
              cases healthy <;> simp
            · rw [findRec_updateRec_ne s _ hid] at hf
              exact h fid' r' hf hps
        · rw [applyTransition] at hf
          simp only [hfs, hp, hpoll] at hf
          exact h fid' r' hf hps

theorem storeInv_applyAll (ts : List (Nat × Transition)) (s : Store)
    (h : StoreInv s) : StoreInv (applyAll ts s) := by
  induction ts generalizing s with
  | nil => exact h
  | cons nt rest ih =>
    exact ih (applyTransition nt.1 nt.2 s) (storeInv_applyTransition nt.1 nt.2 s h)

/-- Claim C3: applying the same `UploadedEvent` twice, or the same
`RootsAddedEvent` twice, leaves exactly the store produced by one
application; in particular an `UploadedEvent` for an identifier already
present is a no-op, and in any store reachable from empty a duplicate
`RootsAddedEvent` for an identifier that already has a proof set leaves the
store unchanged. -/
theorem event_idempotent (s : Store) (now now' : Nat) (fid name pid : String) :
    applyTransition now' (.uploaded fid name)
        (applyTransition now (.uploaded fid name) s)
      = applyTransition now (.uploaded fid name) s
  ∧ applyTransition now' (.rootsAdded fid pid)
        (applyTransition now (.rootsAdded fid pid) s)
      = applyTransition now (.rootsAdded fid pid) s
  ∧ (∀ r, findRec s fid = some r → applyTransition now (.uploaded fid name) s = s)
  ∧ (∀ ts r p, s = applyAll ts emptyStore → findRec s fid = some r →
       r.proofset_identifier = some p →
       applyTransition now (.rootsAdded fid pid) s = s) := by
  refine ⟨?_, ?_, ?_, ?_⟩
  · cases hfs : findRec s fid with
    | none => simp [applyTransition, hfs, findRec_updateRec_self]
    | some r => simp [applyTransition, hfs]
  · cases hfs : findRec s fid with
    | none => simp [applyTransition, hfs, findRec_updateRec_self]
    | some r =>
      cases hst : r.status with
      | Uploaded => simp [applyTransition, hfs, hst, findRec_updateRec_self]
      | Stored => simp [applyTransition, hfs, hst]
      | Proven => simp [applyTransition, hfs, hst]
      | Faulty => simp [applyTransition, hfs, hst]
  · intro r hfs
    simp [applyTransition, hfs]
  · intro ts r p hreach hfs hp
    have hinv : StoreInv s := by
      rw [hreach]
      exact storeInv_applyAll ts emptyStore storeInv_empty
    have hst : r.status ≠ Status.Uploaded :=
      hinv fid r hfs (by simp [hp])
    cases hstc : r.status with
    | Uploaded => exact absurd hstc hst
    | Stored => simp [applyTransition, hfs, hstc]
    | Proven => simp [applyTransition, hfs, hstc]
    | Faulty => simp [applyTransition, hfs, hstc]

theorem event_idempotent_witness :
    applyTransition 5 (Transition.uploaded "x" "cat.png")
        (applyAll [(0, Transition.uploaded "x" "cat.png"),
                   (1, Transition.rootsAdded "x" "42")] emptyStore)
      = applyAll [(0, Transition.uploaded "x" "cat.png"),
                  (1, Transition.rootsAdded "x" "42")] emptyStore
  ∧ applyTransition 5 (Transition.rootsAdded "x" "42")
        (applyAll [(0, Transition.uploaded "x" "cat.png"),
                   (1, Transition.rootsAdded "x" "42")] emptyStore)
      = applyAll [(0, Transition.uploaded "x" "cat.png"),
                  (1, Transition.rootsAdded "x" "42")] emptyStore := by
  have h := event_idempotent
    (applyAll [(0, Transition.uploaded "x" "cat.png"),
               (1, Transition.rootsAdded "x" "42")] emptyStore)
    5 6 "x" "cat.png" "42"
  refine ⟨h.2.2.1 ⟨"cat.png", "x", some "42", Status.Stored, 1⟩ (by decide), ?_⟩
  exact h.2.2.2 [(0, Transition.uploaded "x" "cat.png"),
                 (1, Transition.rootsAdded "x" "42")]
    ⟨"cat.png", "x", some "42", Status.Stored, 1⟩ "42" rfl (by decide) rfl

/-- Claim C4: a `RootsAddedEvent` for an identifier with no existing record
is not dropped — the store gains a record for that identifier directly in
`Stored`, carrying the proof-set id of the event (the identifier itself
being the only name information available). -/
theorem roots_added_out_of_order (s : Store) (now : Nat) (fid pid : String)
    (h : findRec s fid = none) :
    findRec (applyTransition now (.rootsAdded fid pid) s) fid
      = some ⟨fid, fid, some pid, Status.Stored, now⟩ := by
  simp [applyTransition, h, findRec_updateRec_self]

theorem roots_added_out_of_order_witness :
    findRec emptyStore "x" = none
  ∧ findRec (applyTransition 7 (Transition.rootsAdded "x" "42") emptyStore) "x"
      = some ⟨"x", "x", some "42", Status.Stored, 7⟩ :=
  ⟨rfl, roots_added_out_of_order emptyStore 7 "x" "42" rfl⟩

/-- Claim C5: `render` produces exactly the line
`display_name ++ "," ++ status_text ++ "\n"`, with the fixed vocabulary
word for each status: `uploaded`, `stored`, `stored & proven`,
`stored & faulty`. -/
theorem render_vocabulary (name fid : String) (ps : Option String) (t : Nat) :
    render ⟨name, fid, ps, Status.Uploaded, t⟩ = name ++ "," ++ "uploaded" ++ "\n"
  ∧ render ⟨name, fid, ps, Status.Stored, t⟩ = name ++ "," ++ "stored" ++ "\n"
  ∧ render ⟨name, fid, ps, Status.Proven, t⟩ = name ++ "," ++ "stored & proven" ++ "\n"
  ∧ render ⟨name, fid, ps, Status.Faulty, t⟩ = name ++ "," ++ "stored & faulty" ++ "\n" :=
  ⟨rfl, rfl, rfl, rfl⟩

/-- Claim C6: decode fails closed — a message whose stage is neither
`UPLOADED` nor `ROOTS_ADDED`, or whose payload misses a field required for
its stage, yields `DecodeError`; the message is dropped, store and Display
Sink are untouched, and ingestion of the remaining messages proceeds as if
the bad message had never arrived. -/
theorem decode_fails_closed (m : RawMessage)
    (h : (m.stage ≠ "UPLOADED" ∧ m.stage ≠ "ROOTS_ADDED")
       ∨ (m.stage = "UPLOADED" ∧ (m.file = none ∨ m.file_id = none))
       ∨ (m.stage = "ROOTS_ADDED"
            ∧ (m.file = none ∨ m.file_id = none ∨ m.proofset_id = none))) :
    decode m = .error .decodeError
  ∧ (∀ now st, ingestStep now m st = st)
  ∧ (∀ now st rest, ingestAll ((now, m) :: rest) st = ingestAll rest st) := by
  have hdec : decode m = .error .decodeError := by
    rcases h with ⟨h1, h2⟩ | ⟨h1, h2⟩ | ⟨h1, h2⟩
    · simp [decode, h1, h2]
    · rcases h2 with hf | hfi
      · simp [decode, h1, hf]
      · cases hf2 : m.file with
        | none => simp [decode, h1, hf2]
        | some f => simp [decode, h1, hf2, hfi]
    · rcases h2 with hf | hfi | hps
      · simp [decode, h1, hf]
      · cases hf2 : m.file with
        | none => simp [decode, h1, hf2]
        | some f => simp [decode, h1, hf2, hfi]
      · cases hf2 : m.file with
        | none => simp [decode, h1, hf2]
        | some f =>
          cases hfi2 : m.file_id with
          | none => simp [decode, h1, hf2, hfi2]
          | some fi => simp [decode, h1, hf2, hfi2, hps]
  have hstep : ∀ now st, ingestStep now m st = st := by
    intro now st
    simp [ingestStep, hdec]
  refine ⟨hdec, hstep, ?_⟩
  intro now st rest
  simp [ingestAll, List.foldl_cons, hstep]

theorem decode_fails_closed_witness :
    decode ⟨"UNKNOWN", some "cat.png", some "baga1:baga2", none⟩
      = .error .decodeError
  ∧ ingestStep 3 ⟨"UNKNOWN", some "cat.png", some "baga1:baga2", none⟩
      (emptyStore, []) = (emptyStore, []) := by
  have h := decode_fails_closed ⟨"UNKNOWN", some "cat.png", some "baga1:baga2", none⟩
    (Or.inl ⟨by decide, by decide⟩)
  exact ⟨h.1, h.2.1 3 (emptyStore, [])⟩

theorem pollResult_preserves_uploaded (now : Nat) (fid' : String) (hb : Bool)
    (s : Store) (fid : String) (r : FileRecord)
    (hf : findRec s fid = some r) (hst : r.status = Status.Uploaded) :
    findRec (applyTransition now (.pollResult fid' hb) s) fid = some r := by
  by_cases hid : fid' = fid
  · subst hid
    cases hp : r.proofset_identifier with
    | none => simp [applyTransition, hf, hp]
    | some q =>
      have hfalse : inPollStates r.status = false := by simp [hst, inPollStates]
      simp [applyTransition, hf, hp, hfalse]
  · cases hfs : findRec s fid' with
    | none => simp [applyTransition, hfs, hf]
    | some r' =>
      cases hp : r'.proofset_identifier with
      | none => simp [applyTransition, hfs, hp, hf]
      | some q =>
        by_cases hps : inPollStates r'.status = true
        · by_cases heq : (if hb then Status.Proven else Status.Faulty) = r'.status
          · simp [applyTransition, hfs, hp, hps, heq, hf]
          · simp [applyTransition, hfs, hp, hps, heq,
              findRec_updateRec_ne s _ hid, hf]
        · simp [applyTransition, hfs, hp, hps, hf]

theorem pollResults_foldl_preserves (now : Nat) (health : String → Bool)
    (fid : String) (r : FileRecord) (hst : r.status = Status.Uploaded)
    (l : List (String × String)) :
    ∀ st : Store, findRec st fid = some r →
      findRec (l.foldl
        (fun st2 fp => applyTransition now (.pollResult fp.1 (health fp.2)) st2) st)
        fid = some r := by
  induction l with
  | nil => intro st h; exact h
  | cons fp rest ih =>
    intro st h
    exact ih _ (pollResult_preserves_uploaded now fp.1 (health fp.2) st fid r h hst)

/-- Claim C7: the Poller never queries a record without a proof set — every
pair selected on a tick comes from a record with `proofset_identifier` set
and a status in `{Stored, Proven, Faulty}`, and a record in `Uploaded` is
left exactly as it was by the whole tick. -/
theorem poller_skips (now mi : Nat) (s : Store) (health : String → Bool) :
    (∀ fid p, (fid, p) ∈ pollSelect now mi s →
       ∃ r', (fid, r') ∈ s ∧ r'.proofset_identifier = some p
          ∧ inPollStates r'.status = true)
  ∧ (∀ fid r, findRec s fid = some r → r.status = Status.Uploaded →
       findRec (pollTick now mi health s) fid = some r) := by
  constructor
  · intro fid p hmem
    simp only [pollSelect] at hmem
    rcases List.mem_filterMap.mp hmem with ⟨kr, hkr, hfk⟩
    cases hp : kr.2.proofset_identifier with
    | none => rw [hp] at hfk; simp at hfk
    | some q =>
      rw [hp] at hfk
      by_cases hc : (inPollStates kr.2.status
          && decide (kr.2.last_transition_at + mi ≤ now)) = true
      · obtain ⟨h1, h2⟩ : kr.1 = fid ∧ q = p := by
          simpa [hc] using hfk
        subst h1
        subst h2
        have hand : inPollStates kr.2.status = true
            ∧ kr.2.last_transition_at + mi ≤ now := by
          simpa using hc
        refine ⟨kr.2, ?_, hp, hand.1⟩
        have heta : (kr.1, kr.2) = kr := rfl
        rw [heta]
        exact hkr
      · simp [hc] at hfk
  · intro fid r hf hst
    exact pollResults_foldl_preserves now health fid r hst (pollSelect now mi s) s hf

theorem poller_skips_witness :
    (∃ r', ("b", r') ∈ ([("a", ⟨"a.png", "a", none, Status.Uploaded, 0⟩),
                         ("b", ⟨"b.png", "b", some "42", Status.Stored, 0⟩)] : Store)
        ∧ r'.proofset_identifier = some "42" ∧ inPollStates r'.status = true)
  ∧ findRec (pollTick 100 5 (fun _ => true)
        [("a", ⟨"a.png", "a", none, Status.Uploaded, 0⟩),
         ("b", ⟨"b.png", "b", some "42", Status.Stored, 0⟩)]) "a"
      = some ⟨"a.png", "a", none, Status.Uploaded, 0⟩ := by
  have h := poller_skips 100 5
    [("a", ⟨"a.png", "a", none, Status.Uploaded, 0⟩),
     ("b", ⟨"b.png", "b", some "42", Status.Stored, 0⟩)] (fun _ => true)
  exact ⟨h.1 "b" "42" (by decide),
         h.2 "a" ⟨"a.png", "a", none, Status.Uploaded, 0⟩ (by decide) rfl⟩

end Relay
